import Mathlib

/- Formal model of `merge_csv.py`, a batch pipeline that merges per-station,
   per-time-window CSV exports of time-series measurements into one unified
   time-indexed table.  Python strings are modelled as `List Char`, Python's
   `None`/`NaN` cells as `Option`, DataFrames keyed by the time column as
   association lists from timestamps to row contents, and exceptions as
   `Option`/`Except` results. -/

set_option autoImplicit false
set_option linter.unusedSectionVars false

namespace MergeCsv

/-! ## Timestamp parser (`parse_time_column`) -/

/-- Model of a Python `datetime.datetime` value (date and time fields only;
the script never uses microseconds or timezones). -/
structure PyDateTime where
  year : Int
  month : Int
  day : Int
  hour : Int
  minute : Int
  second : Int
  deriving DecidableEq

/-- Gregorian leap-year test, as used by `datetime` for day-of-month bounds. -/
def isLeap (y : Int) : Bool :=
  y % 4 == 0 && (y % 100 != 0 || y % 400 == 0)

/-- Number of days in a month, as validated by the `datetime` constructor. -/
def daysInMonth (y m : Int) : Int :=
  if m = 2 then (if isLeap y then 29 else 28)
  else if m = 4 ∨ m = 6 ∨ m = 9 ∨ m = 11 then 30
  else 31

/-- Model of the `datetime.datetime(...)` constructor: returns the value when
all fields are in `datetime`'s documented ranges, and `none` (the constructor
raises `ValueError`, which `parse_time_column` catches) otherwise. -/
def datetime (y mo d h mi s : Int) : Option PyDateTime :=
  if 1 ≤ y ∧ y ≤ 9999 ∧ 1 ≤ mo ∧ mo ≤ 12 ∧ 1 ≤ d ∧ d ≤ daysInMonth y mo ∧
     0 ≤ h ∧ h ≤ 23 ∧ 0 ≤ mi ∧ mi ≤ 59 ∧ 0 ≤ s ∧ s ≤ 59 then
    some ⟨y, mo, d, h, mi, s⟩
  else
    none

/-- ASCII whitespace, for the leading/trailing strip performed by Python's
`int()`.  (We restrict the model to ASCII characters; the CSV labels the
script feeds in are ASCII.) -/
def isSpaceChar (c : Char) : Bool :=
  c == ' ' || c == '\t' || c == '\n' || c == '\r'

/-- Strip leading and trailing whitespace, as Python's `int()` does. -/
def stripSpaces (s : List Char) : List Char :=
  ((s.dropWhile isSpaceChar).reverse.dropWhile isSpaceChar).reverse

/-- Numeric value of a decimal digit string (callers ensure all characters are
digits). -/
def digitsToNat (l : List Char) : Nat :=
  l.foldl (fun a c => 10 * a + (c.toNat - 48)) 0

/-- Body of `pyInt` after whitespace stripping: allow one optional sign, then
require a nonempty run of decimal digits. -/
def pyIntCore : List Char → Option Int
  | [] => none
  | c :: rest =>
    if c = '+' then
      if rest ≠ [] ∧ rest.all Char.isDigit then some (digitsToNat rest : Int) else none
    else if c = '-' then
      if rest ≠ [] ∧ rest.all Char.isDigit then some (-(digitsToNat rest : Int)) else none
    else if (c :: rest).all Char.isDigit then some (digitsToNat (c :: rest) : Int)
    else none

/-- Model of Python's `int(str)`: strip whitespace, allow one optional sign,
then require a nonempty run of decimal digits; any other input raises
`ValueError`, modelled as `none`. -/
def pyInt (s : List Char) : Option Int :=
  pyIntCore (stripSpaces s)

/-- Model of Python's `str.split(sep)` for a one-character separator. -/
def pySplit (sep : Char) : List Char → List (List Char)
  | [] => [[]]
  | c :: rest =>
    if c = sep then [] :: pySplit sep rest
    else
      match pySplit sep rest with
      | h :: t => (c :: h) :: t
      | [] => [[c]]

/-- `parse_time_column`: convert a `'MMDD-HHMMSS'` column label plus a caller
supplied year into a `datetime`, or `None` when anything in the body raises
(the bare `except` clause). `month_day[:2]` etc. are Python slices, i.e.
`take`/`drop`. Unpacking `a, b = split(...)` raises unless the split produced
exactly two fragments. -/
def parseFragments : List (List Char) → Int → Option PyDateTime
  | [month_day, time_part], year =>
    (pyInt (month_day.take 2)).bind fun mo =>
    (pyInt ((month_day.drop 2).take 2)).bind fun d =>
    (pyInt (time_part.take 2)).bind fun h =>
    (pyInt ((time_part.drop 2).take 2)).bind fun mi =>
    (pyInt ((time_part.drop 4).take 2)).bind fun s =>
    datetime year mo d h mi s
  | _, _ => none

def parse_time_column (time_str : List Char) (year : Int) : Option PyDateTime :=
  parseFragments (pySplit '-' time_str) year

/-- The decimal digit character for `n ≤ 9`. -/
def digitChar (n : Nat) : Char :=
  match n with
  | 0 => '0' | 1 => '1' | 2 => '2' | 3 => '3' | 4 => '4'
  | 5 => '5' | 6 => '6' | 7 => '7' | 8 => '8' | _ => '9'

/-- Two-digit zero-padded decimal rendering of `n < 100`; the unique way a
valid field value appears inside a well-formed `MMDD-HHMMSS` label. -/
def twoDigit (n : Nat) : List Char :=
  [digitChar (n / 10), digitChar (n % 10)]

/-- The well-formed `MMDD-HHMMSS` label encoding the given field values. -/
def formatLabel (mo d h mi s : Nat) : List Char :=
  twoDigit mo ++ twoDigit d ++ '-' :: (twoDigit h ++ twoDigit mi ++ twoDigit s)

theorem digitChar_spec (j : Nat) (hj : j ≤ 9) :
    isSpaceChar (digitChar j) = false ∧ (digitChar j).isDigit = true ∧
    digitChar j ≠ '+' ∧ digitChar j ≠ '-' ∧ (digitChar j).toNat - 48 = j := by
  interval_cases j <;> exact ⟨rfl, rfl, by decide, by decide, rfl⟩

theorem dropWhile_eq_self_of_none {p : Char → Bool} {l : List Char}
    (h : ∀ c ∈ l, p c = false) : l.dropWhile p = l := by
  cases l with
  | nil => rfl
  | cons a t =>
    rw [List.dropWhile_cons, if_neg]
    simp [h a (List.mem_cons_self a t)]

theorem stripSpaces_eq_self {l : List Char}
    (h : ∀ c ∈ l, isSpaceChar c = false) : stripSpaces l = l := by
  unfold stripSpaces
  rw [dropWhile_eq_self_of_none h,
      dropWhile_eq_self_of_none (fun c hc => h c (List.mem_reverse.mp hc)),
      List.reverse_reverse]

theorem pyInt_digits (n : Nat) (h : n ≤ 99) :
    pyInt [digitChar (n / 10), digitChar (n % 10)] = some (n : Int) := by
  have h1 : n / 10 ≤ 9 := by omega
  have h2 : n % 10 ≤ 9 := by omega
  obtain ⟨s1, d1, p1, m1, v1⟩ := digitChar_spec _ h1
  obtain ⟨s2, d2, p2, m2, v2⟩ := digitChar_spec _ h2
  have hstrip : stripSpaces [digitChar (n / 10), digitChar (n % 10)] =
      [digitChar (n / 10), digitChar (n % 10)] := by
    refine stripSpaces_eq_self (fun c hc => ?_)
    simp only [List.mem_cons, List.not_mem_nil, or_false] at hc
    rcases hc with rfl | rfl
    · exact s1
    · exact s2
  rw [pyInt, hstrip, pyIntCore]
  rw [if_neg p1, if_neg m1, if_pos (by simp [d1, d2])]
  have hfold : digitsToNat [digitChar (n / 10), digitChar (n % 10)] = n := by
    simp only [digitsToNat, List.foldl, v1, v2]
    omega
  rw [hfold]

theorem digitChar_ne_dash (j : Nat) : digitChar j ≠ '-' := by
  unfold digitChar
  split <;> decide

theorem mem_twoDigit_ne_dash {n : Nat} {c : Char} (hc : c ∈ twoDigit n) : c ≠ '-' := by
  simp only [twoDigit, List.mem_cons, List.not_mem_nil, or_false] at hc
  rcases hc with rfl | rfl
  · exact digitChar_ne_dash _
  · exact digitChar_ne_dash _

theorem pySplit_sepFree (sep : Char) (l : List Char) (h : ∀ c ∈ l, c ≠ sep) :
    pySplit sep l = [l] := by
  induction l with
  | nil => rfl
  | cons a t ih =>
    rw [pySplit, if_neg (h a (List.mem_cons_self a t)),
        ih (fun c hc => h c (List.mem_cons_of_mem a hc))]

theorem pySplit_append (sep : Char) (a b : List Char) (ha : ∀ c ∈ a, c ≠ sep) :
    pySplit sep (a ++ sep :: b) = a :: pySplit sep b := by
  induction a with
  | nil => rw [List.nil_append, pySplit, if_pos rfl]
  | cons x xs ih =>
    rw [List.cons_append, pySplit, if_neg (ha x (List.mem_cons_self x xs)),
        ih (fun c hc => ha c (List.mem_cons_of_mem x hc))]

theorem daysInMonth_le (y m : Int) : daysInMonth y m ≤ 31 := by
  unfold daysInMonth
  split_ifs <;> omega

theorem datetime_of_valid {y mo d h mi s : Int}
    (hy : 1 ≤ y ∧ y ≤ 9999) (hmo : 1 ≤ mo ∧ mo ≤ 12)
    (hd : 1 ≤ d ∧ d ≤ daysInMonth y mo) (hh : 0 ≤ h ∧ h ≤ 23)
    (hmi : 0 ≤ mi ∧ mi ≤ 59) (hs : 0 ≤ s ∧ s ≤ 59) :
    datetime y mo d h mi s = some ⟨y, mo, d, h, mi, s⟩ := by
  unfold datetime
  rw [if_pos]
  exact ⟨hy.1, hy.2, hmo.1, hmo.2, hd.1, hd.2, hh.1, hh.2, hmi.1, hmi.2, hs.1, hs.2⟩

theorem parse_time_column_split {s : List Char} (year : Int) {md tp : List Char}
    (h : pySplit '-' s = [md, tp]) :
    parse_time_column s year =
      ((pyInt (md.take 2)).bind fun mo =>
       (pyInt ((md.drop 2).take 2)).bind fun d =>
       (pyInt (tp.take 2)).bind fun h' =>
       (pyInt ((tp.drop 2).take 2)).bind fun mi =>
       (pyInt ((tp.drop 4).take 2)).bind fun s' =>
       datetime year mo d h' mi s') := by
  rw [parse_time_column, h, parseFragments]

/-- **C3.** For every in-range field tuple (equivalently: every `MMDD-HHMMSS`
label all of whose two-character fields are numeric and in range, each such
label being the two-digit rendering of its field values) and every year in
`datetime`'s valid range, `parse_time_column` returns exactly the timestamp
with the given year and the fields encoded in the label. -/
theorem parse_time_column_roundtrip (year : Int) (mo d h mi s : Nat)
    (hy : 1 ≤ year ∧ year ≤ 9999) (hmo : 1 ≤ mo ∧ mo ≤ 12)
    (hd : 1 ≤ d ∧ (d : Int) ≤ daysInMonth year (mo : Int))
    (hh : h ≤ 23) (hmi : mi ≤ 59) (hs : s ≤ 59) :
    parse_time_column (formatLabel mo d h mi s) year =
      some ⟨year, (mo : Int), (d : Int), (h : Int), (mi : Int), (s : Int)⟩ := by
  have hd31 : d ≤ 31 := by
    have := daysInMonth_le year (mo : Int)
    omega
  have hsplit : pySplit '-' (formatLabel mo d h mi s) =
      [twoDigit mo ++ twoDigit d, twoDigit h ++ twoDigit mi ++ twoDigit s] := by
    rw [formatLabel]
    rw [pySplit_append '-' _ _ (fun c hc => by
      rcases List.mem_append.mp hc with hc | hc
      · exact mem_twoDigit_ne_dash hc
      · exact mem_twoDigit_ne_dash hc)]
    rw [pySplit_sepFree '-' _ (fun c hc => by
      rcases List.mem_append.mp hc with hc | hc
      · rcases List.mem_append.mp hc with hc | hc
        · exact mem_twoDigit_ne_dash hc
        · exact mem_twoDigit_ne_dash hc
      · exact mem_twoDigit_ne_dash hc)]
  rw [parse_time_column_split year hsplit]
  simp only [twoDigit, List.cons_append, List.nil_append, List.take_succ_cons,
    List.take_zero, List.drop_succ_cons, List.drop_zero, List.take_nil, List.drop_nil]
  rw [pyInt_digits mo (by omega), pyInt_digits d (by omega),
      pyInt_digits h (by omega), pyInt_digits mi (by omega),
      pyInt_digits s (by omega)]
  simp only [Option.some_bind]
  exact datetime_of_valid hy (by omega) (by constructor <;> omega)
    (by omega) (by omega) (by omega)

/-- Closed instance of `parse_time_column_roundtrip`: the label `0105-100000`
with year 2022 parses to 2022-01-05 10:00:00. -/
theorem parse_time_column_roundtrip_witness :
    parse_time_column (formatLabel 1 5 10 0 0) 2022 = some ⟨2022, 1, 5, 10, 0, 0⟩ :=
  parse_time_column_roundtrip 2022 1 5 10 0 0 (by decide) (by decide) (by decide)
    (by decide) (by decide) (by decide)

/-- **C4 counterexample.** The label `105-100000` has the wrong length for
`MMDD-HHMMSS` (10 characters instead of 11), yet `parse_time_column` does not
return the sentinel: Python's slices silently shorten, so the label parses as
October 5th.  Hence "every wrong-length label yields `None`" is false. -/
theorem parse_time_column_wrong_length_counterexample :
    parse_time_column ("105-100000".toList) 2022 = some ⟨2022, 10, 5, 10, 0, 0⟩ ∧
    ("105-100000".toList).length = 10 ∧ ("0105-100000".toList).length = 11 := by
  exact ⟨by decide, by decide, by decide⟩

/-- **C4 (amended).** The parser is total (it returns `Option`, never raising
to the caller), and every label with a non-numeric fragment or an out-of-range
field yields the sentinel `none`: whenever parsing succeeds, the dash-split
produced exactly two fragments, all five sliced fragments parsed as Python
integers, and every resulting field is within `datetime`'s calendar ranges.
(Wrong-length labels, by contrast, may still parse, as the counterexample
shows.) -/
theorem parse_time_column_sound (s : List Char) (year : Int) (dt : PyDateTime)
    (hp : parse_time_column s year = some dt) :
    dt.year = year ∧
    (1 ≤ dt.year ∧ dt.year ≤ 9999 ∧ 1 ≤ dt.month ∧ dt.month ≤ 12 ∧
     1 ≤ dt.day ∧ dt.day ≤ daysInMonth dt.year dt.month ∧
     0 ≤ dt.hour ∧ dt.hour ≤ 23 ∧ 0 ≤ dt.minute ∧ dt.minute ≤ 59 ∧
     0 ≤ dt.second ∧ dt.second ≤ 59) ∧
    ∃ md tp, pySplit '-' s = [md, tp] ∧
      pyInt (md.take 2) = some dt.month ∧ pyInt ((md.drop 2).take 2) = some dt.day ∧
      pyInt (tp.take 2) = some dt.hour ∧ pyInt ((tp.drop 2).take 2) = some dt.minute ∧
      pyInt ((tp.drop 4).take 2) = some dt.second := by
  unfold parse_time_column at hp
  rcases hsp : pySplit '-' s with _ | ⟨md, _ | ⟨tp, _ | ⟨z, zs⟩⟩⟩ <;> rw [hsp] at hp
  · exact absurd hp (by simp [parseFragments])
  · exact absurd hp (by simp [parseFragments])
  · rw [parseFragments] at hp
    rcases Option.bind_eq_some.mp hp with ⟨mo, hmo, hp⟩
    rcases Option.bind_eq_some.mp hp with ⟨d, hd, hp⟩
    rcases Option.bind_eq_some.mp hp with ⟨h, hh, hp⟩
    rcases Option.bind_eq_some.mp hp with ⟨mi, hmi, hp⟩
    rcases Option.bind_eq_some.mp hp with ⟨sec, hsec, hp⟩
    unfold datetime at hp
    split at hp
    · rename_i hcond
      cases hp
      exact ⟨rfl, hcond, md, tp, rfl, hmo, hd, hh, hmi, hsec⟩
    · exact Option.noConfusion hp
  · exact absurd hp (by simp [parseFragments])

/-- Closed instance of `parse_time_column_sound` at the label `0105-100000`. -/
theorem parse_time_column_sound_witness :
    (⟨2022, 1, 5, 10, 0, 0⟩ : PyDateTime).year = 2022 ∧
    parse_time_column ("0105-100000".toList) 2022 = some ⟨2022, 1, 5, 10, 0, 0⟩ :=
  ⟨(parse_time_column_sound ("0105-100000".toList) 2022 ⟨2022, 1, 5, 10, 0, 0⟩
      (by decide)).1, by decide⟩

/-! ## Time series as DataFrames keyed by the `时间` column

A DataFrame whose first column is the timestamp is modelled as an association
list from timestamps to row contents.  `pandas` operations used by the script:
`df[df[k] == t]` row selection (`lookupKey` returns the first matching row),
`concat` (`++`/`flatten`), `drop_duplicates(subset=['时间'])` (keep the first
occurrence, `dedupRows`), `sort_values('时间')` (`sortRows`; the script only
sorts frames with pairwise-distinct keys, where every sort agrees), and
`merge(..., on='时间', how='outer')` followed by `combine_first`
(`fillMerge`; in pandas ≥ 1.0 an outer merge with the default `sort=False`
lists the left frame's keys in order and then the right-only keys in order,
and the script only merges frames whose keys are pairwise distinct, which the
`Nodup` hypotheses of the claim theorems record). -/

section Series

variable {T : Type} [DecidableEq T] {R V : Type}

/-- First row of the frame whose time key equals `t`, if any. -/
def lookupKey (t : T) : List (T × R) → Option R
  | [] => none
  | (t', v) :: rest => if t' = t then some v else lookupKey t rest

/-- The frame's time column. -/
def keysOf (l : List (T × R)) : List T :=
  l.map Prod.fst

/-- `drop_duplicates(subset=['时间'])`, body: keep a row when its time key has
not been seen yet. -/
def dedupRowsAux (seen : List T) : List (T × R) → List (T × R)
  | [] => []
  | (t, v) :: rest =>
    if t ∈ seen then dedupRowsAux seen rest else (t, v) :: dedupRowsAux (t :: seen) rest

/-- `drop_duplicates(subset=['时间'])`: keep the first row for each time key. -/
def dedupRows (l : List (T × R)) : List (T × R) :=
  dedupRowsAux [] l

/-- The `combine_first` cell rule: a primary cell keeps its value, a null
primary cell takes the secondary series' cell at the same timestamp. -/
def fillValue (s : List (T × Option V)) (t : T) (v : Option V) : Option V :=
  v.orElse fun _ => (lookupKey t s).join

/-- Cross-station fill-merge of a primary series with a secondary one
(`pd.merge(..., on='时间', how='outer')` + `combine_first` + column drop):
primary rows keep their value, null primary cells are filled from the
secondary series, and secondary rows at new timestamps are appended. -/
def fillMerge (p s : List (T × Option V)) : List (T × Option V) :=
  p.map (fun r => (r.1, fillValue s r.1 r.2)) ++
  s.filter (fun r => (lookupKey r.1 p).isNone)

variable [LinearOrder T]

/-- Comparison of rows by their time key. -/
def keyLe (a b : T × R) : Prop :=
  a.1 ≤ b.1

instance : DecidableRel (keyLe (T := T) (R := R)) :=
  fun a b => inferInstanceAs (Decidable (a.1 ≤ b.1))

instance : IsTotal (T × R) keyLe :=
  ⟨fun a b => le_total a.1 b.1⟩

instance : IsTrans (T × R) keyLe :=
  ⟨fun _ _ _ h1 h2 => le_trans h1 h2⟩

/-- `sort_values('时间')`, ascending. -/
def sortRows (l : List (T × R)) : List (T × R) :=
  List.insertionSort keyLe l

/-- Per-station reconciliation (`pd.concat` + `drop_duplicates` + `sort_values`):
vertically concatenate the per-file frames in file order, keep the first
occurrence of each time key, then sort ascending by time. -/
def reconcile (dfs : List (List (T × R))) : List (T × R) :=
  sortRows (dedupRows dfs.flatten)

@[simp] theorem keysOf_nil : keysOf ([] : List (T × R)) = [] := rfl

@[simp] theorem keysOf_cons {t : T} {v : R} {l : List (T × R)} :
    keysOf ((t, v) :: l) = t :: keysOf l := rfl

theorem keysOf_eq_map (l : List (T × R)) : keysOf l = l.map Prod.fst := rfl

theorem lookupKey_cons {t t' : T} {v : R} {l : List (T × R)} :
    lookupKey t ((t', v) :: l) = if t' = t then some v else lookupKey t l := rfl

theorem lookupKey_isSome_iff {t : T} {l : List (T × R)} :
    (lookupKey t l).isSome = true ↔ t ∈ keysOf l := by
  induction l with
  | nil => simp [lookupKey]
  | cons r rest ih =>
    obtain ⟨t', v'⟩ := r
    rw [lookupKey_cons]
    by_cases ht : t' = t
    · subst ht; simp
    · have ht' : ¬t = t' := fun hh => ht hh.symm
      simp [if_neg ht, ih, ht']

theorem lookupKey_eq_none_iff {t : T} {l : List (T × R)} :
    lookupKey t l = none ↔ t ∉ keysOf l := by
  rw [← lookupKey_isSome_iff]
  cases lookupKey t l <;> simp

theorem lookupKey_append {t : T} (l1 l2 : List (T × R)) :
    lookupKey t (l1 ++ l2) =
      match lookupKey t l1 with
      | some v => some v
      | none => lookupKey t l2 := by
  induction l1 with
  | nil => simp [lookupKey]
  | cons r rest ih =>
    obtain ⟨t', v'⟩ := r
    rw [List.cons_append, lookupKey_cons, lookupKey_cons]
    by_cases ht : t' = t
    · simp [ht]
    · simp [ht, ih]

theorem lookupKey_mapVal {W : Type} (g : T → R → W) (t : T) (l : List (T × R)) :
    lookupKey t (l.map (fun r => (r.1, g r.1 r.2))) = (lookupKey t l).map (g t) := by
  induction l with
  | nil => rfl
  | cons r rest ih =>
    obtain ⟨t', v'⟩ := r
    simp only [List.map_cons, lookupKey_cons]
    by_cases ht : t' = t
    · subst ht; simp
    · simp [ht, ih]

theorem lookupKey_filter_of_true {t : T} {q : T × R → Bool} {l : List (T × R)}
    (hq : ∀ r : T × R, r.1 = t → q r = true) :
    lookupKey t (l.filter q) = lookupKey t l := by
  induction l with
  | nil => rfl
  | cons r rest ih =>
    obtain ⟨t', v'⟩ := r
    by_cases ht : t' = t
    · rw [List.filter_cons, if_pos (by simp [hq (t', v') ht]), lookupKey_cons,
          lookupKey_cons, if_pos ht, if_pos ht]
    · rw [List.filter_cons]
      by_cases hqr : q (t', v') = true
      · rw [if_pos (by simp [hqr]), lookupKey_cons, lookupKey_cons, if_neg ht, if_neg ht, ih]
      · rw [if_neg (by simp [hqr]), lookupKey_cons, if_neg ht, ih]

theorem lookupKey_filter_of_false {t : T} {q : T × R → Bool} {l : List (T × R)}
    (hq : ∀ r : T × R, r.1 = t → q r = false) :
    lookupKey t (l.filter q) = none := by
  rw [lookupKey_eq_none_iff, keysOf_eq_map]
  intro hmem
  obtain ⟨r, hr, hk⟩ := List.mem_map.mp hmem
  have hqt := List.of_mem_filter hr
  rw [hq r hk] at hqt
  exact Bool.noConfusion hqt

theorem mem_of_lookupKey {t : T} {l : List (T × R)} {v : R}
    (h : lookupKey t l = some v) : (t, v) ∈ l := by
  induction l with
  | nil => exact Option.noConfusion h
  | cons r rest ih =>
    obtain ⟨t', v'⟩ := r
    rw [lookupKey_cons] at h
    by_cases ht : t' = t
    · rw [if_pos ht] at h
      cases h
      subst ht
      exact List.mem_cons_self _ _
    · rw [if_neg ht] at h
      exact List.mem_cons_of_mem _ (ih h)

theorem lookupKey_eq_some_of_mem {t : T} {l : List (T × R)} {v : R}
    (hn : (keysOf l).Nodup) (hm : (t, v) ∈ l) : lookupKey t l = some v := by
  induction l with
  | nil => simp at hm
  | cons r rest ih =>
    obtain ⟨t', v'⟩ := r
    rcases List.mem_cons.mp hm with heq | hmem
    · cases heq
      rw [lookupKey_cons, if_pos rfl]
    · rw [lookupKey_cons]
      by_cases ht : t' = t
      · subst ht
        have : t' ∈ keysOf rest := by
          rw [keysOf_eq_map]
          exact List.mem_map.mpr ⟨_, hmem, rfl⟩
        exact absurd this (List.nodup_cons.mp hn).1
      · rw [if_neg ht]
        exact ih (List.nodup_cons.mp hn).2 hmem

theorem lookupKey_perm {l l' : List (T × R)} (hp : l.Perm l')
    (hn : (keysOf l).Nodup) (t : T) : lookupKey t l = lookupKey t l' := by
  have hkp : (keysOf l).Perm (keysOf l') := hp.map Prod.fst
  have hn' : (keysOf l').Nodup := hkp.nodup hn
  cases h : lookupKey t l with
  | some v => exact (lookupKey_eq_some_of_mem hn' (hp.subset (mem_of_lookupKey h))).symm
  | none =>
    symm
    rw [lookupKey_eq_none_iff] at h ⊢
    exact fun hmem => h (hkp.mem_iff.mpr hmem)

theorem lookupKey_dedupRowsAux (t : T) (l : List (T × R)) : ∀ seen : List T,
    lookupKey t (dedupRowsAux seen l) = if t ∈ seen then none else lookupKey t l := by
  induction l with
  | nil =>
    intro seen
    by_cases ht : t ∈ seen <;> simp [dedupRowsAux, lookupKey, ht]
  | cons r rest ih =>
    intro seen
    obtain ⟨t', v'⟩ := r
    rw [dedupRowsAux]
    by_cases hseen : t' ∈ seen
    · rw [if_pos hseen, ih seen, lookupKey_cons]
      by_cases ht : t ∈ seen
      · rw [if_pos ht, if_pos ht]
      · rw [if_neg ht, if_neg ht, if_neg (fun h : t' = t => ht (h ▸ hseen))]
    · rw [if_neg hseen, lookupKey_cons, ih (t' :: seen), lookupKey_cons]
      by_cases htt : t' = t
      · subst htt
        rw [if_pos rfl, if_pos rfl, if_neg hseen]
      · rw [if_neg htt, if_neg htt]
        by_cases ht : t ∈ seen
        · rw [if_pos (List.mem_cons_of_mem t' ht), if_pos ht]
        · rw [if_neg (fun h => by
            rcases List.mem_cons.mp h with h1 | h1
            · exact htt h1.symm
            · exact ht h1), if_neg ht]

theorem lookupKey_dedupRows (t : T) (l : List (T × R)) :
    lookupKey t (dedupRows l) = lookupKey t l := by
  rw [dedupRows, lookupKey_dedupRowsAux t l [], if_neg (List.not_mem_nil t)]

theorem mem_keysOf_dedupRows {t : T} {l : List (T × R)} :
    t ∈ keysOf (dedupRows l) ↔ t ∈ keysOf l := by
  rw [← lookupKey_isSome_iff, ← lookupKey_isSome_iff, lookupKey_dedupRows]

theorem dedupRowsAux_nodup (l : List (T × R)) : ∀ seen : List T,
    (∀ t ∈ keysOf (dedupRowsAux seen l), t ∉ seen) ∧
    (keysOf (dedupRowsAux seen l)).Nodup := by
  induction l with
  | nil =>
    intro seen
    simp [dedupRowsAux]
  | cons r rest ih =>
    intro seen
    obtain ⟨t', v'⟩ := r
    rw [dedupRowsAux]
    by_cases hseen : t' ∈ seen
    · rw [if_pos hseen]
      exact ih seen
    · rw [if_neg hseen]
      obtain ⟨h1, h2⟩ := ih (t' :: seen)
      constructor
      · intro t ht
        rcases List.mem_cons.mp (by simpa using ht) with rfl | ht2
        · exact hseen
        · exact fun hts => h1 t ht2 (List.mem_cons_of_mem _ hts)
      · rw [keysOf_cons, List.nodup_cons]
        exact ⟨fun hm => h1 t' hm (List.mem_cons_self _ _), h2⟩

theorem keysOf_dedupRows_nodup (l : List (T × R)) : (keysOf (dedupRows l)).Nodup :=
  (dedupRowsAux_nodup l []).2

theorem sortRows_perm (l : List (T × R)) : (sortRows l).Perm l :=
  List.perm_insertionSort keyLe l

theorem sortRows_sorted (l : List (T × R)) : List.Sorted keyLe (sortRows l) :=
  List.sorted_insertionSort keyLe l

theorem reconcile_nodupKeys (dfs : List (List (T × R))) :
    (keysOf (reconcile dfs)).Nodup :=
  (((sortRows_perm (dedupRows dfs.flatten)).map Prod.fst)).symm.nodup
    (keysOf_dedupRows_nodup dfs.flatten)

theorem keysOf_reconcile_pairwise_lt (dfs : List (List (T × R))) :
    (keysOf (reconcile dfs)).Pairwise (· < ·) := by
  have hle : (keysOf (reconcile dfs)).Pairwise (· ≤ ·) := by
    rw [keysOf_eq_map]
    exact List.pairwise_map.mpr (sortRows_sorted (dedupRows dfs.flatten))
  have hne : (keysOf (reconcile dfs)).Pairwise (· ≠ ·) := reconcile_nodupKeys dfs
  exact (hle.and hne).imp (fun h => lt_of_le_of_ne h.1 h.2)

theorem lookupKey_reconcile (dfs : List (List (T × R))) (t : T) :
    lookupKey t (reconcile dfs) = lookupKey t dfs.flatten := by
  have hn : (keysOf (sortRows (dedupRows dfs.flatten))).Nodup :=
    ((sortRows_perm (dedupRows dfs.flatten)).map Prod.fst).symm.nodup
      (keysOf_dedupRows_nodup dfs.flatten)
  rw [reconcile, lookupKey_perm (sortRows_perm (dedupRows dfs.flatten)) hn t]
  exact lookupKey_dedupRows t dfs.flatten

theorem mem_keysOf_reconcile {dfs : List (List (T × R))} {t : T} :
    t ∈ keysOf (reconcile dfs) ↔ t ∈ keysOf dfs.flatten := by
  rw [← lookupKey_isSome_iff, ← lookupKey_isSome_iff, lookupKey_reconcile]

theorem lookupKey_fillMerge (p s : List (T × Option V)) (t : T) :
    lookupKey t (fillMerge p s) =
      match lookupKey t p, lookupKey t s with
      | some vp, some vs => some (vp.orElse fun _ => vs)
      | some vp, none => some vp
      | none, o => o := by
  rw [fillMerge, lookupKey_append, lookupKey_mapVal (fun a b => fillValue s a b) t p]
  cases hp : lookupKey t p with
  | some vp =>
    cases hs : lookupKey t s with
    | some vs => simp [fillValue, hs]
    | none => simp [fillValue, hs]
  | none =>
    have : lookupKey t (s.filter (fun r => (lookupKey r.1 p).isNone)) = lookupKey t s := by
      refine lookupKey_filter_of_true (fun r hr => ?_)
      rw [hr, hp]
      rfl
    simp [this]

theorem keysOf_fillMerge_nodup {p s : List (T × Option V)}
    (hp : (keysOf p).Nodup) (hs : (keysOf s).Nodup) :
    (keysOf (fillMerge p s)).Nodup := by
  rw [fillMerge, keysOf_eq_map, List.map_append, List.nodup_append]
  refine ⟨?_, ?_, ?_⟩
  · rw [List.map_map]
    exact hp
  · exact hs.sublist ((List.filter_sublist s).map Prod.fst)
  · intro t hmem1 hmem2
    rw [List.map_map] at hmem1
    obtain ⟨r, hr, hk⟩ := List.mem_map.mp hmem2
    have hqt := List.of_mem_filter hr
    rw [hk] at hqt
    rw [Option.isNone_iff_eq_none, lookupKey_eq_none_iff] at hqt
    exact hqt hmem1

/-- **C1.** Merging an existing (primary) series with a new (secondary) series
for the same variable is an outer join on timestamp — the merged key set is
the union of both key sets — and at every timestamp the merged cell keeps the
primary value, falling back to the secondary value exactly when the primary
cell is null (first-non-null wins).  The `Nodup` hypotheses record that the
pipeline only merges series with pairwise-distinct timestamps, where this
model coincides with `pd.merge(how='outer')` + `combine_first`. -/
theorem fillMerge_spec (p s : List (T × Option V))
    (hp : (keysOf p).Nodup) (hs : (keysOf s).Nodup) :
    (∀ t, t ∈ keysOf (fillMerge p s) ↔ t ∈ keysOf p ∨ t ∈ keysOf s) ∧
    (∀ t, lookupKey t (fillMerge p s) =
      match lookupKey t p, lookupKey t s with
      | some vp, some vs => some (vp.orElse fun _ => vs)
      | some vp, none => some vp
      | none, o => o) := by
  refine ⟨fun t => ?_, fun t => lookupKey_fillMerge p s t⟩
  rw [← lookupKey_isSome_iff, ← lookupKey_isSome_iff, ← lookupKey_isSome_iff,
      lookupKey_fillMerge]
  cases lookupKey t p <;> cases lookupKey t s <;> simp

/-- Closed instance of `fillMerge_spec` at the spec's example:
primary `[t1 ↦ 5, t2 ↦ null]`, secondary `[t1 ↦ 9, t2 ↦ 7]` merge to
`[t1 ↦ 5, t2 ↦ 7]`. -/
theorem fillMerge_spec_witness :
    fillMerge [((1 : Int), some (5 : Int)), (2, none)] [(1, some 9), (2, some 7)] =
      [(1, some 5), (2, some 7)] ∧
    lookupKey 1 (fillMerge [((1 : Int), some (5 : Int)), (2, none)]
      [(1, some 9), (2, some 7)]) = some (some 5) ∧
    lookupKey 2 (fillMerge [((1 : Int), some (5 : Int)), (2, none)]
      [(1, some 9), (2, some 7)]) = some (some 7) := by
  have h := fillMerge_spec [((1 : Int), some (5 : Int)), (2, none)]
    [(1, some 9), (2, some 7)] (by decide) (by decide)
  exact ⟨by decide, (h.2 1).trans (by decide), (h.2 2).trans (by decide)⟩

/-- **C2.** Per-station reconciliation vertically concatenates the per-file
extracts in file order (`dfs.flatten`), deduplicates by timestamp keeping the
first occurrence in concatenation order (the kept row at `t` is the first row
at `t` of the concatenation: `lookupKey` returns first matches), then sorts
ascending; every timestamp occurring in any window — in particular one shared
by two windows — occupies exactly one row of the result. -/
theorem reconcile_spec (dfs : List (List (T × R))) (t : T)
    (ht : t ∈ keysOf dfs.flatten) :
    List.count t (keysOf (reconcile dfs)) = 1 ∧
    lookupKey t (reconcile dfs) = lookupKey t dfs.flatten ∧
    (keysOf (reconcile dfs)).Pairwise (· < ·) := by
  refine ⟨?_, lookupKey_reconcile dfs t, keysOf_reconcile_pairwise_lt dfs⟩
  have hmem : t ∈ keysOf (reconcile dfs) := mem_keysOf_reconcile.mpr ht
  exact List.count_eq_one_of_mem (reconcile_nodupKeys dfs) hmem

/-- Closed instance of `reconcile_spec`: two windows share timestamp 2; the
reconciled frame has exactly one row at 2 and keeps the first window's value. -/
theorem reconcile_spec_witness :
    (2 : Int) ∈ keysOf ([[(1, (10 : Int)), (2, 20)], [(2, 99), (3, 30)]].flatten) ∧
    List.count 2 (keysOf (reconcile [[((1 : Int), (10 : Int)), (2, 20)], [(2, 99), (3, 30)]])) = 1 ∧
    lookupKey 2 (reconcile [[((1 : Int), (10 : Int)), (2, 20)], [(2, 99), (3, 30)]]) = some 20 := by
  have h := reconcile_spec [[((1 : Int), (10 : Int)), (2, 20)], [(2, 99), (3, 30)]] 2 (by decide)
  exact ⟨by decide, h.1, h.2.1.trans (by decide)⟩

/-- **C8.** On series with disjoint timestamp sets the fill-merge is
commutative as a time series (the mapping from timestamps to values is the
same whichever series is primary).  The `Nodup` hypotheses again record the
pipeline invariant under which the model matches pandas. -/
theorem fillMerge_comm_of_disjoint (p s : List (T × Option V))
    (hp : (keysOf p).Nodup) (hs : (keysOf s).Nodup)
    (hdisj : ∀ t ∈ keysOf p, t ∉ keysOf s) (t : T) :
    lookupKey t (fillMerge p s) = lookupKey t (fillMerge s p) := by
  rw [lookupKey_fillMerge, lookupKey_fillMerge]
  cases hp1 : lookupKey t p with
  | some vp =>
    cases hs1 : lookupKey t s with
    | some vs =>
      exact absurd (lookupKey_isSome_iff.mp (by rw [hs1]; rfl))
        (hdisj t (lookupKey_isSome_iff.mp (by rw [hp1]; rfl)))
    | none => rfl
  | none =>
    cases hs1 : lookupKey t s <;> rfl

/-- Closed instance of `fillMerge_comm_of_disjoint` on the disjoint series
`[1 ↦ 5]` and `[2 ↦ 7]`, checked at both timestamps. -/
theorem fillMerge_comm_of_disjoint_witness :
    lookupKey 1 (fillMerge [((1 : Int), some (5 : Int))] [(2, some 7)]) =
      lookupKey 1 (fillMerge [((2 : Int), some (7 : Int))] [(1, some 5)]) ∧
    lookupKey 2 (fillMerge [((1 : Int), some (5 : Int))] [(2, some 7)]) =
      lookupKey 2 (fillMerge [((2 : Int), some (7 : Int))] [(1, some 5)]) :=
  ⟨fillMerge_comm_of_disjoint [((1 : Int), some (5 : Int))] [(2, some 7)]
      (by decide) (by decide) (by decide) 1,
   fillMerge_comm_of_disjoint [((1 : Int), some (5 : Int))] [(2, some 7)]
      (by decide) (by decide) (by decide) 2⟩

end Series

/-! ## Variable extractor (`extract_variable_from_csv`)

A raw CSV table is modelled by its time-window column labels (columns from
index 4 on) and its rows, each row carrying the two lookup-key cells
(`描述` = description, `点名` = point name) and its cells under the
time-window columns.  The Python `result_data` dict is modelled as an
insertion-ordered association list built with `dictUpsert` (assigning to an
existing key keeps its position and replaces its value, as a Python dict
does); the `'时间'` entry holds timestamps rather than cells and is kept as a
separate component of the result pair. -/

section Extractor

variable {V A : Type}

/-- One row of a raw CSV table. -/
structure RawRow (V : Type) where
  desc : String
  point : String
  vals : List (Option V)

/-- A raw CSV table: the `MMDD-HHMMSS` column labels and the rows. -/
structure RawTable (V : Type) where
  timeLabels : List (List Char)
  rows : List (RawRow V)

/-- Row lookup: `df[df['描述'] == name]` first, `.iloc[0]` (first match);
on an empty selection, the same against `df['点名']`. -/
def findRow (rows : List (RawRow V)) (name : String) : Option (RawRow V) :=
  match rows.find? (fun r => r.desc = name) with
  | some r => some r
  | none => rows.find? (fun r => r.point = name)

/-- The timestamps of the labels that parse (`valid_indices` filtering), in
original column order. -/
def validTimes (labels : List (List Char)) (year : Int) : List PyDateTime :=
  labels.filterMap (fun c => parse_time_column c year)

/-- A row's cells restricted to the columns whose label parses
(`matching_rows.iloc[0][time_columns]` after the filtering). -/
def restrictRow (labels : List (List Char)) (year : Int) (vals : List (Option V)) :
    List (Option V) :=
  ((labels.zip vals).filter (fun p => (parse_time_column p.1 year).isSome)).map Prod.snd

/-- The column emitted for a requested variable name: the first row matching
on `描述`, else the first row matching on `点名`, else (with a logged warning,
not modelled) a full column of nulls. -/
def columnFor (tbl : RawTable V) (year : Int) (name : String) : List (Option V) :=
  match findRow tbl.rows name with
  | some r => restrictRow tbl.timeLabels year r.vals
  | none => List.replicate (validTimes tbl.timeLabels year).length none

/-- Python dict assignment `d[k] = v`: replace in place when the key exists
(keeping its position), append otherwise. -/
def dictUpsert (d : List (String × A)) (k : String) (v : A) : List (String × A) :=
  if d.any (fun p => p.1 = k) then
    d.map (fun p => if p.1 = k then (k, v) else p)
  else d ++ [(k, v)]

/-- `extract_variable_from_csv`: the `'时间'` column (timestamps of the labels
that parsed, in column order) together with the per-variable columns built by
dict assignment over the requested names in request order. -/
def extract_variable_from_csv (tbl : RawTable V) (variable_names : List String)
    (year : Int) : List PyDateTime × List (String × List (Option V)) :=
  (validTimes tbl.timeLabels year,
   variable_names.foldl (fun d name => dictUpsert d name (columnFor tbl year name)) [])

/-- The keys a run of dict assignments appends to a dict whose key list is
`ks`: the names not already present, in first-occurrence order. -/
def newKeys : List String → List String → List String
  | _, [] => []
  | ks, n :: rest => if n ∈ ks then newKeys ks rest else n :: newKeys (ks ++ [n]) rest

/-- First-occurrence deduplication, as performed by Python dict insertion. -/
def dedupFirst (names : List String) : List String :=
  newKeys [] names

theorem find?_eq_head?_filter {α : Type} (p : α → Bool) (l : List α) :
    l.find? p = (l.filter p).head? := by
  induction l with
  | nil => rfl
  | cons a t ih =>
    cases hp : p a with
    | true => rw [List.find?_cons_of_pos _ hp, List.filter_cons_of_pos hp, List.head?_cons]
    | false =>
      have hp' : ¬p a = true := by simp [hp]
      rw [List.find?_cons_of_neg _ hp', List.filter_cons_of_neg hp', ih]

theorem restrictRow_cons {l : List Char} {ls : List (List Char)} {year : Int}
    {v : Option V} {vs : List (Option V)} :
    restrictRow (l :: ls) year (v :: vs) =
      if (parse_time_column l year).isSome then v :: restrictRow ls year vs
      else restrictRow ls year vs := by
  rw [restrictRow, restrictRow, List.zip_cons_cons, List.filter_cons]
  by_cases hp : (parse_time_column l year).isSome = true
  · rw [if_pos hp, if_pos hp, List.map_cons]
  · rw [if_neg hp, if_neg hp]

theorem validTimes_cons {l : List Char} {ls : List (List Char)} {year : Int} :
    validTimes (l :: ls) year =
      match parse_time_column l year with
      | some t => t :: validTimes ls year
      | none => validTimes ls year := by
  rw [validTimes, List.filterMap_cons]
  cases parse_time_column l year <;> rfl

theorem restrictRow_length {labels : List (List Char)} {year : Int}
    {vals : List (Option V)} (hlen : vals.length = labels.length) :
    (restrictRow labels year vals).length = (validTimes labels year).length := by
  induction labels generalizing vals with
  | nil =>
    cases vals with
    | nil => rfl
    | cons v vs => simp at hlen
  | cons l ls ih =>
    cases vals with
    | nil => simp at hlen
    | cons v vs =>
      have hlen' : vs.length = ls.length := by simpa using hlen
      rw [restrictRow_cons, validTimes_cons]
      cases hparse : parse_time_column l year with
      | none => simpa [hparse] using ih hlen'
      | some t => simpa [hparse] using ih hlen'

theorem mem_of_findRow {rows : List (RawRow V)} {name : String} {r : RawRow V}
    (h : findRow rows name = some r) : r ∈ rows := by
  unfold findRow at h
  cases hf : rows.find? (fun x => x.desc = name) with
  | some r' =>
    rw [hf] at h
    cases h
    exact List.mem_of_find?_eq_some hf
  | none =>
    rw [hf] at h
    exact List.mem_of_find?_eq_some h

theorem columnFor_length {tbl : RawTable V} {year : Int} {name : String}
    (hw : ∀ r ∈ tbl.rows, r.vals.length = tbl.timeLabels.length) :
    (columnFor tbl year name).length = (validTimes tbl.timeLabels year).length := by
  unfold columnFor
  cases hf : findRow tbl.rows name with
  | some r => exact restrictRow_length (hw r (mem_of_findRow hf))
  | none => exact List.length_replicate _ _

theorem dict_any_iff {d : List (String × A)} {k : String} :
    (d.any (fun p => p.1 = k) = true) ↔ k ∈ keysOf d := by
  rw [List.any_eq_true, keysOf_eq_map]
  constructor
  · rintro ⟨p, hp, he⟩
    exact List.mem_map.mpr ⟨p, hp, by simpa using he⟩
  · rintro hm
    obtain ⟨p, hp, he⟩ := List.mem_map.mp hm
    exact ⟨p, hp, by simpa using he⟩

theorem lookupKey_map_upsert_self {d : List (String × A)} {k : String} {v : A}
    (hk : k ∈ keysOf d) :
    lookupKey k (d.map (fun p => if p.1 = k then (k, v) else p)) = some v := by
  induction d with
  | nil => simp at hk
  | cons p rest ih =>
    obtain ⟨k1, v1⟩ := p
    by_cases h1 : k1 = k
    · subst h1
      simp [lookupKey_cons]
    · rw [List.map_cons]
      have hcond : ¬((k1, v1).1 = k) := h1
      rw [if_neg hcond, lookupKey_cons, if_neg h1]
      refine ih ?_
      rcases List.mem_cons.mp (by simpa using hk) with h | h
      · exact absurd h.symm h1
      · simpa using h

theorem lookupKey_map_upsert_other {d : List (String × A)} {k k' : String} {v : A}
    (hkk : k' ≠ k) :
    lookupKey k' (d.map (fun p => if p.1 = k then (k, v) else p)) = lookupKey k' d := by
  induction d with
  | nil => rfl
  | cons p rest ih =>
    obtain ⟨k1, v1⟩ := p
    by_cases h1 : k1 = k
    · subst h1
      simp [lookupKey_cons, Ne.symm hkk, ih]
    · rw [List.map_cons]
      have hcond : ¬((k1, v1).1 = k) := h1
      rw [if_neg hcond, lookupKey_cons, lookupKey_cons]
      by_cases h2 : k1 = k'
      · rw [if_pos h2, if_pos h2]
      · rw [if_neg h2, if_neg h2, ih]

theorem lookupKey_dictUpsert (d : List (String × A)) (k k' : String) (v : A) :
    lookupKey k' (dictUpsert d k v) = if k' = k then some v else lookupKey k' d := by
  unfold dictUpsert
  by_cases hmem : k ∈ keysOf d
  · rw [if_pos (dict_any_iff.mpr hmem)]
    by_cases hk : k' = k
    · subst hk
      rw [if_pos rfl, lookupKey_map_upsert_self hmem]
    · rw [if_neg hk, lookupKey_map_upsert_other hk]
  · rw [if_neg (fun h => hmem (dict_any_iff.mp h)), lookupKey_append]
    by_cases hk : k' = k
    · subst hk
      rw [if_pos rfl, lookupKey_eq_none_iff.mpr hmem]
      simp [lookupKey_cons]
    · rw [if_neg hk]
      cases hl : lookupKey k' d with
      | some w => rfl
      | none => simp [lookupKey_cons, if_neg (Ne.symm hk), lookupKey]

theorem mem_dictUpsert {d : List (String × A)} {k : String} {v : A} {c : String × A}
    (hc : c ∈ dictUpsert d k v) : c ∈ d ∨ c = (k, v) := by
  unfold dictUpsert at hc
  split at hc
  · obtain ⟨p, hp, he⟩ := List.mem_map.mp hc
    by_cases hpk : p.1 = k
    · rw [if_pos hpk] at he
      exact Or.inr he.symm
    · rw [if_neg hpk] at he
      exact Or.inl (he ▸ hp)
  · rcases List.mem_append.mp hc with h | h
    · exact Or.inl h
    · exact Or.inr (by simpa using h)

theorem lookupKey_dict_fold (f : String → A) (names : List String)
    (d : List (String × A)) (k : String) :
    lookupKey k (names.foldl (fun d' n => dictUpsert d' n (f n)) d) =
      if k ∈ names then some (f k) else lookupKey k d := by
  induction names generalizing d with
  | nil => simp
  | cons n rest ih =>
    rw [List.foldl_cons, ih]
    by_cases hk : k ∈ rest
    · rw [if_pos hk, if_pos (List.mem_cons_of_mem n hk)]
    · rw [if_neg hk, lookupKey_dictUpsert]
      by_cases hkn : k = n
      · rw [if_pos hkn, if_pos (by rw [hkn]; exact List.mem_cons_self n rest), hkn]
      · rw [if_neg hkn, if_neg (by simp [hkn, hk])]

theorem keysOf_dictUpsert (d : List (String × A)) (k : String) (v : A) :
    keysOf (dictUpsert d k v) =
      if k ∈ keysOf d then keysOf d else keysOf d ++ [k] := by
  unfold dictUpsert
  by_cases hmem : k ∈ keysOf d
  · rw [if_pos (dict_any_iff.mpr hmem), if_pos hmem, keysOf_eq_map, keysOf_eq_map,
      List.map_map]
    refine List.map_congr_left (fun p hp => ?_)
    by_cases hpk : p.1 = k
    · simp [hpk]
    · simp [hpk]
  · rw [if_neg (fun h => hmem (dict_any_iff.mp h)), if_neg hmem, keysOf_eq_map,
      keysOf_eq_map, List.map_append]
    rfl

theorem keysOf_dict_fold (f : String → A) (names : List String)
    (d : List (String × A)) :
    keysOf (names.foldl (fun d' n => dictUpsert d' n (f n)) d) =
      keysOf d ++ newKeys (keysOf d) names := by
  induction names generalizing d with
  | nil => simp [newKeys]
  | cons n rest ih =>
    rw [List.foldl_cons, ih, keysOf_dictUpsert, newKeys]
    by_cases hn : n ∈ keysOf d
    · rw [if_pos hn, if_pos hn]
    · rw [if_neg hn, if_neg hn, List.append_assoc, List.singleton_append]

theorem newKeys_spec (names : List String) : ∀ ks : List String,
    (∀ k ∈ newKeys ks names, k ∉ ks) ∧ (newKeys ks names).Nodup := by
  induction names with
  | nil =>
    intro ks
    simp [newKeys]
  | cons n rest ih =>
    intro ks
    rw [newKeys]
    by_cases hn : n ∈ ks
    · rw [if_pos hn]
      exact ih ks
    · rw [if_neg hn]
      obtain ⟨h1, h2⟩ := ih (ks ++ [n])
      refine ⟨fun k hk => ?_, ?_⟩
      · rcases List.mem_cons.mp hk with rfl | hk
        · exact hn
        · exact fun hks => h1 k hk (List.mem_append.mpr (Or.inl hks))
      · rw [List.nodup_cons]
        exact ⟨fun hmem => h1 n hmem (List.mem_append.mpr (Or.inr (by simp))), h2⟩

theorem mem_dict_fold {f : String → A} {names : List String} {d : List (String × A)} :
    ∀ c ∈ names.foldl (fun d' n => dictUpsert d' n (f n)) d, c ∈ d ∨ ∃ k, c = (k, f k) := by
  induction names generalizing d with
  | nil => exact fun c hc => Or.inl hc
  | cons n rest ih =>
    intro c hc
    rw [List.foldl_cons] at hc
    rcases ih c hc with hcd | hcf
    · rcases mem_dictUpsert hcd with h | h
      · exact Or.inl h
      · exact Or.inr ⟨n, h⟩
    · exact Or.inr hcf

/-- **C6.** For every raw table and requested name, the emitted column is: the
time-restricted cells of the first row whose description (`描述`) matches
exactly; on a miss, of the first row whose point name (`点名`) matches; on a
double miss, a full column of nulls (a warning is printed — I/O is not
modelled — and extraction continues, i.e. the function is total and still
emits a column).  `head?` of the filtered rows makes "only the first matching
row is used" explicit. -/
theorem extract_lookup_policy (tbl : RawTable V) (names : List String) (year : Int)
    (name : String) (hmem : name ∈ names) :
    lookupKey name (extract_variable_from_csv tbl names year).2 =
      some (match (tbl.rows.filter (fun r => r.desc = name)).head? with
        | some r => restrictRow tbl.timeLabels year r.vals
        | none =>
          match (tbl.rows.filter (fun r => r.point = name)).head? with
          | some r => restrictRow tbl.timeLabels year r.vals
          | none => List.replicate (validTimes tbl.timeLabels year).length none) := by
  have h := lookupKey_dict_fold (columnFor tbl year) names [] name
  rw [if_pos hmem] at h
  rw [show (extract_variable_from_csv tbl names year).2 =
      names.foldl (fun d n => dictUpsert d n (columnFor tbl year n)) [] from rfl, h]
  rw [← find?_eq_head?_filter, ← find?_eq_head?_filter]
  rw [columnFor, findRow]
  cases tbl.rows.find? (fun r => r.desc = name) with
  | some r => rfl
  | none => cases tbl.rows.find? (fun r => r.point = name) with
    | some r => rfl
    | none => rfl

/-- Closed instance of `extract_lookup_policy`: two rows share the
description `a`; the first one's cells are used. -/
theorem extract_lookup_policy_witness :
    lookupKey "a" (extract_variable_from_csv
      (⟨["0105-100000".toList],
        [⟨"a", "p", [some (1 : Int)]⟩, ⟨"a", "q", [some 2]⟩]⟩ : RawTable Int)
      ["a"] 2022).2 = some [some 1] := by
  have h := extract_lookup_policy
    (⟨["0105-100000".toList],
      [⟨"a", "p", [some (1 : Int)]⟩, ⟨"a", "q", [some 2]⟩]⟩ : RawTable Int)
    ["a"] 2022 "a" (by decide)
  exact h.trans (by decide)

/-- **C10 counterexample.** A duplicated request list does not reproduce its
duplicates in the output columns: Python dict assignment collapses them, so
the columns after the time column are NOT "the requested variable names in
request order". -/
theorem extract_duplicate_request_counterexample :
    keysOf (extract_variable_from_csv (⟨[], []⟩ : RawTable Int) ["a", "a"] 2022).2 = ["a"] ∧
    ["a"] ≠ ["a", "a"] :=
  ⟨by decide, by decide⟩

/-- **C10 (amended).** For every well-formed table (each row has one cell per
time-window label) and request list none of whose names equals the time
column's name `时间` (a requested name `时间` would collide with the time
entry of the Python dict, a region the model does not cover), the extractor
returns: the time column of exactly the labels that parsed, in original
column order; data columns keyed by the requested names deduplicated to their
first occurrence, in request order (not the raw request list, as the
counterexample shows); and every data column with exactly one cell per valid
timestamp — regardless of whether any requested variable was found. -/
theorem extract_shape (tbl : RawTable V) (names : List String) (year : Int)
    (hw : ∀ r ∈ tbl.rows, r.vals.length = tbl.timeLabels.length)
    (hclash : "时间" ∉ names) :
    (extract_variable_from_csv tbl names year).1 = validTimes tbl.timeLabels year ∧
    keysOf (extract_variable_from_csv tbl names year).2 = dedupFirst names ∧
    (dedupFirst names).Nodup ∧
    (∀ k, k ∈ keysOf (extract_variable_from_csv tbl names year).2 ↔ k ∈ names) ∧
    ∀ c ∈ (extract_variable_from_csv tbl names year).2,
      c.2.length = (validTimes tbl.timeLabels year).length := by
  refine ⟨rfl, ?_, (newKeys_spec names []).2, fun k => ?_, fun c hc => ?_⟩
  · have h := keysOf_dict_fold (columnFor tbl year) names []
    simpa [dedupFirst] using h
  · rw [← lookupKey_isSome_iff,
      show (extract_variable_from_csv tbl names year).2 =
        names.foldl (fun d n => dictUpsert d n (columnFor tbl year n)) [] from rfl,
      lookupKey_dict_fold]
    by_cases hk : k ∈ names <;> simp [hk, lookupKey]
  · rcases mem_dict_fold c hc with h | ⟨k, rfl⟩
    · simp at h
    · exact columnFor_length hw

/-- Closed instance of `extract_shape` on a one-row table and the request
list `["a", "b"]` (with `b` absent from the table). -/
theorem extract_shape_witness :
    (extract_variable_from_csv
      (⟨["0105-100000".toList], [⟨"a", "pa", [some (3 : Int)]⟩]⟩ : RawTable Int)
      ["a", "b"] 2022).1 = validTimes ["0105-100000".toList] 2022 ∧
    keysOf (extract_variable_from_csv
      (⟨["0105-100000".toList], [⟨"a", "pa", [some (3 : Int)]⟩]⟩ : RawTable Int)
      ["a", "b"] 2022).2 = dedupFirst ["a", "b"] := by
  have h := extract_shape
    (⟨["0105-100000".toList], [⟨"a", "pa", [some (3 : Int)]⟩]⟩ : RawTable Int)
    ["a", "b"] 2022 (by decide) (by decide)
  exact ⟨h.1, h.2.1⟩

end Extractor

/-! ## Chronological order on `PyDateTime`

Python compares `datetime` values field-lexicographically; `sort_values` and
`sorted` on the time column use this order. -/

/-- Field-lexicographic (chronological) comparison of datetimes. -/
def dtLe (a b : PyDateTime) : Prop :=
  a.year < b.year ∨ (a.year = b.year ∧
    (a.month < b.month ∨ (a.month = b.month ∧
      (a.day < b.day ∨ (a.day = b.day ∧
        (a.hour < b.hour ∨ (a.hour = b.hour ∧
          (a.minute < b.minute ∨ (a.minute = b.minute ∧
            a.second ≤ b.second)))))))))

instance dtLe.instDecidable (a b : PyDateTime) : Decidable (dtLe a b) := by
  unfold dtLe
  exact inferInstance

instance : LinearOrder PyDateTime where
  le := dtLe
  le_refl a := Or.inr ⟨rfl, Or.inr ⟨rfl, Or.inr ⟨rfl, Or.inr ⟨rfl, Or.inr ⟨rfl, le_rfl⟩⟩⟩⟩⟩
  le_trans a b c hab hbc := by
    simp only [dtLe] at *
    omega
  le_antisymm a b hab hba := by
    obtain ⟨y1, mo1, d1, h1, mi1, s1⟩ := a
    obtain ⟨y2, mo2, d2, h2, mi2, s2⟩ := b
    simp only [dtLe] at hab hba
    simp only [PyDateTime.mk.injEq]
    omega
  le_total a b := by
    obtain ⟨y1, mo1, d1, h1, mi1, s1⟩ := a
    obtain ⟨y2, mo2, d2, h2, mi2, s2⟩ := b
    simp only [dtLe]
    omega
  decidableLE := dtLe.instDecidable

/-! ## Final assembly (`process_all_data`, lines 170–191)

`all_times` is the set union of every variable's timestamps, sorted
ascending; each variable's series is then left-joined onto that skeleton
(`pd.merge(..., how='left')`, which for each skeleton row emits one output
row per matching right row, or one null-filled row when there is no match);
the frame is sorted by time again, and the target variable's column is moved
to the last position.  The time column is the row key of the model, so the
column list holds the variable columns; the reorder keeps the time column
first in the script because the target name differs from `'时间'`. -/

section Assembly

variable {T : Type} [LinearOrder T] {V : Type}

/-- First-occurrence deduplication of a plain list, body (building Python's
`set` and sorting makes the choice of representative irrelevant; keeping the
first is canonical). -/
def dedupListAux {α : Type} [DecidableEq α] (seen : List α) : List α → List α
  | [] => []
  | a :: rest =>
    if a ∈ seen then dedupListAux seen rest else a :: dedupListAux (a :: seen) rest

/-- First-occurrence deduplication of a plain list. -/
def dedupList {α : Type} [DecidableEq α] (l : List α) : List α :=
  dedupListAux [] l

/-- `sorted(set union of df['时间'] over all variables)`. -/
def allTimes (vd : List (String × List (T × Option V))) : List T :=
  List.insertionSort (fun a b => a ≤ b) (dedupList (vd.flatMap (fun p => keysOf p.2)))

/-- One step of `pd.merge(merged_df, df, on='时间', how='left')`: each
skeleton row is paired with every matching series row, or gains a null cell
when the series has no row at that timestamp. -/
def leftJoinCol (rows : List (T × List (Option V))) (s : List (T × Option V)) :
    List (T × List (Option V)) :=
  rows.flatMap (fun r =>
    match s.filter (fun p => p.1 = r.1) with
    | [] => [(r.1, r.2 ++ [none])]
    | ms => ms.map (fun m => (r.1, r.2 ++ [m.2])))

/-- The skeleton of all timestamps, left-joined with every variable's series
in dict order. -/
def buildRows (vd : List (String × List (T × Option V))) : List (T × List (Option V)) :=
  vd.foldl (fun rows p => leftJoinCol rows p.2) ((allTimes vd).map (fun t => (t, [])))

/-- Column selection `merged_df[cols]` applied to one row: read each selected
column's cell out of the old column/cell association. -/
def reindexRow (cols : List String) (vs : List (Option V)) (newCols : List String) :
    List (Option V) :=
  newCols.map (fun n => (lookupKey n (cols.zip vs)).join)

/-- Lines 176–191: build the skeleton, left-join every variable, sort by
time, and move the target column (when present) to the last position. -/
def finalAssembly (vd : List (String × List (T × Option V))) (target : String) :
    List String × List (T × List (Option V)) :=
  let cols := vd.map Prod.fst
  let rows := sortRows (buildRows vd)
  if target ∈ cols then
    let newCols := cols.filter (fun c => c ≠ target) ++ [target]
    (newCols, rows.map (fun r => (r.1, reindexRow cols r.2 newCols)))
  else (cols, rows)

/-- The final table's cell for variable `n` at time `t`: the variable's
series value there, null when the series has no row at `t` (or no such
variable exists). -/
def cellOf (vd : List (String × List (T × Option V))) (n : String) (t : T) : Option V :=
  match lookupKey n vd with
  | some s => (lookupKey t s).join
  | none => none

theorem mem_dedupListAux {α : Type} [DecidableEq α] {x : α} (l : List α) :
    ∀ seen : List α, x ∈ dedupListAux seen l ↔ x ∈ l ∧ x ∉ seen := by
  induction l with
  | nil =>
    intro seen
    simp [dedupListAux]
  | cons a rest ih =>
    intro seen
    rw [dedupListAux]
    by_cases ha : a ∈ seen
    · rw [if_pos ha, ih seen]
      by_cases hx : x = a
      · subst hx
        simp [ha]
      · simp [hx]
    · rw [if_neg ha]
      by_cases hx : x = a
      · subst hx
        simp [ha]
      · simp only [List.mem_cons, hx, false_or, ih (a :: seen)]

theorem mem_dedupList {α : Type} [DecidableEq α] {x : α} {l : List α} :
    x ∈ dedupList l ↔ x ∈ l := by
  rw [dedupList, mem_dedupListAux l []]
  simp

theorem nodup_dedupListAux {α : Type} [DecidableEq α] (l : List α) :
    ∀ seen : List α, (dedupListAux seen l).Nodup := by
  induction l with
  | nil =>
    intro seen
    rw [dedupListAux]
    exact List.nodup_nil
  | cons a rest ih =>
    intro seen
    rw [dedupListAux]
    by_cases ha : a ∈ seen
    · rw [if_pos ha]
      exact ih seen
    · rw [if_neg ha, List.nodup_cons]
      refine ⟨fun hm => ?_, ih (a :: seen)⟩
      exact ((mem_dedupListAux rest (a :: seen)).mp hm).2 (List.mem_cons_self a seen)

theorem nodup_dedupList {α : Type} [DecidableEq α] (l : List α) :
    (dedupList l).Nodup :=
  nodup_dedupListAux l []

theorem allTimes_nodup (vd : List (String × List (T × Option V))) :
    (allTimes vd).Nodup := by
  rw [allTimes]
  exact (List.perm_insertionSort _ _).symm.nodup (nodup_dedupList _)

theorem allTimes_pairwise_lt (vd : List (String × List (T × Option V))) :
    (allTimes vd).Pairwise (· < ·) := by
  have hle : (allTimes vd).Pairwise (fun a b => a ≤ b) :=
    List.sorted_insertionSort _ _
  exact (hle.and (allTimes_nodup vd)).imp (fun h => lt_of_le_of_ne h.1 h.2)

theorem mem_allTimes {vd : List (String × List (T × Option V))} {t : T} :
    t ∈ allTimes vd ↔ ∃ p ∈ vd, t ∈ keysOf p.2 := by
  rw [allTimes, (List.perm_insertionSort _ _).mem_iff, mem_dedupList, List.mem_flatMap]

theorem filter_key_eq_of_nodup {s : List (T × Option V)}
    (hs : (keysOf s).Nodup) (t : T) :
    s.filter (fun p => p.1 = t) =
      match lookupKey t s with
      | some v => [(t, v)]
      | none => [] := by
  induction s with
  | nil => rfl
  | cons r rest ih =>
    obtain ⟨t', v'⟩ := r
    by_cases ht : t' = t
    · subst ht
      rw [List.filter_cons_of_pos (by simp), lookupKey_cons, if_pos rfl]
      have hrest : rest.filter (fun p => p.1 = t') = [] := by
        rw [List.filter_eq_nil_iff]
        intro p hp
        simp only [decide_eq_true_eq]
        intro hk
        exact (List.nodup_cons.mp hs).1 (List.mem_map.mpr ⟨p, hp, hk⟩)
      rw [hrest]
    · rw [List.filter_cons_of_neg (by simp [ht]), lookupKey_cons, if_neg ht,
        ih (List.nodup_cons.mp hs).2]

theorem leftJoinCol_eq {s : List (T × Option V)} (hs : (keysOf s).Nodup)
    (rows : List (T × List (Option V))) :
    leftJoinCol rows s = rows.map (fun r => (r.1, r.2 ++ [(lookupKey r.1 s).join])) := by
  rw [leftJoinCol]
  induction rows with
  | nil => rfl
  | cons r rs ih =>
    have hfr : (match s.filter (fun p => p.1 = r.1) with
        | [] => [(r.1, r.2 ++ [none])]
        | ms => ms.map (fun m => (r.1, r.2 ++ [m.2]))) =
        [(r.1, r.2 ++ [(lookupKey r.1 s).join])] := by
      rw [filter_key_eq_of_nodup hs]
      cases lookupKey r.1 s with
      | none => rfl
      | some v => rfl
    rw [List.flatMap_cons, hfr, ih, List.singleton_append, List.map_cons]

theorem fold_leftJoin (vds : List (String × List (T × Option V)))
    (hn : ∀ p ∈ vds, (keysOf p.2).Nodup) (rows : List (T × List (Option V))) :
    vds.foldl (fun rs p => leftJoinCol rs p.2) rows =
      rows.map (fun r => (r.1, r.2 ++ vds.map (fun p => (lookupKey r.1 p.2).join))) := by
  induction vds generalizing rows with
  | nil => simp
  | cons p ps ih =>
    rw [List.foldl_cons, leftJoinCol_eq (hn p (List.mem_cons_self p ps)),
        ih (fun q hq => hn q (List.mem_cons_of_mem p hq)), List.map_map]
    refine List.map_congr_left (fun r hr => ?_)
    simp

theorem buildRows_eq {vd : List (String × List (T × Option V))}
    (hn : ∀ p ∈ vd, (keysOf p.2).Nodup) :
    buildRows vd =
      (allTimes vd).map (fun t => (t, vd.map (fun p => (lookupKey t p.2).join))) := by
  rw [buildRows, fold_leftJoin vd hn, List.map_map]
  refine List.map_congr_left (fun t ht => ?_)
  simp

theorem cells_eq {vd : List (String × List (T × Option V))}
    (hv : (vd.map Prod.fst).Nodup) (t : T) :
    vd.map (fun p => (lookupKey t p.2).join) =
      (vd.map Prod.fst).map (fun n => cellOf vd n t) := by
  rw [List.map_map]
  refine List.map_congr_left (fun p hp => ?_)
  have hl : lookupKey p.1 vd = some p.2 := lookupKey_eq_some_of_mem hv hp
  simp [cellOf, hl]

theorem zip_self_map {α β : Type} (l : List α) (f : α → β) :
    l.zip (l.map f) = l.map (fun a => (a, f a)) := by
  induction l with
  | nil => rfl
  | cons a t ih => rw [List.map_cons, List.zip_cons_cons, ih, List.map_cons]

theorem reindexRow_eq {cols : List String} (hcn : cols.Nodup) (f : String → Option V)
    {newCols : List String} (hsub : ∀ n ∈ newCols, n ∈ cols) :
    reindexRow cols (cols.map f) newCols = newCols.map f := by
  rw [reindexRow, zip_self_map]
  refine List.map_congr_left (fun n hn => ?_)
  have hl : lookupKey n (cols.map (fun c => (c, f c))) = some (f n) := by
    refine lookupKey_eq_some_of_mem ?_ (List.mem_map.mpr ⟨n, hsub n hn, rfl⟩)
    have hmap : List.map (Prod.fst ∘ fun c => (c, f c)) cols = cols := List.map_id cols
    rw [keysOf_eq_map, List.map_map, hmap]
    exact hcn
  simp [hl]

theorem sortRows_of_sorted {l : List (T × List (Option V))}
    (h : List.Sorted keyLe l) : sortRows l = l :=
  List.Sorted.insertionSort_eq h

theorem keysOf_map_mk {g : T → List (Option V)} (ts : List T) :
    keysOf (ts.map (fun t => (t, g t))) = ts := by
  rw [keysOf_eq_map, List.map_map]
  exact List.map_id ts

/-- Full characterization of the final assembly when the target variable is
present and the pipeline invariants hold: the variable columns are the
non-target variables in dict order followed by the target, and the rows are
the sorted distinct union of all timestamps, each row holding every selected
variable's cell at that time. -/
theorem finalAssembly_eq {vd : List (String × List (T × Option V))} {target : String}
    (hn : ∀ p ∈ vd, (keysOf p.2).Nodup) (hv : (vd.map Prod.fst).Nodup)
    (hmem : target ∈ vd.map Prod.fst) :
    finalAssembly vd target =
      ((vd.map Prod.fst).filter (fun c => c ≠ target) ++ [target],
       (allTimes vd).map (fun t =>
         (t, ((vd.map Prod.fst).filter (fun c => c ≠ target) ++ [target]).map
           (fun n => cellOf vd n t)))) := by
  have hbuild : buildRows vd =
      (allTimes vd).map (fun t => (t, (vd.map Prod.fst).map (fun n => cellOf vd n t))) := by
    rw [buildRows_eq hn]
    refine List.map_congr_left (fun t ht => ?_)
    rw [cells_eq hv]
  have hsorted : List.Sorted keyLe (buildRows vd) := by
    rw [hbuild]
    rw [List.Sorted, List.pairwise_map]
    exact (allTimes_pairwise_lt vd).imp (fun h => le_of_lt h)
  have hsub : ∀ n ∈ (vd.map Prod.fst).filter (fun c => c ≠ target) ++ [target],
      n ∈ vd.map Prod.fst := by
    intro n hn'
    rcases List.mem_append.mp hn' with h | h
    · exact List.mem_of_mem_filter h
    · rw [List.mem_singleton.mp h]
      exact hmem
  rw [finalAssembly]
  simp only []
  rw [if_pos hmem, sortRows_of_sorted hsorted, hbuild, List.map_map]
  refine congrArg _ ?_
  refine List.map_congr_left (fun t ht => ?_)
  simp only [Function.comp]
  rw [reindexRow_eq hv _ hsub]

/-- **C5.** Under the pipeline invariants (each variable's series has
pairwise-distinct timestamps; the variable dict has distinct names) and with
the target variable present, the final merged table has: exactly one row per
distinct timestamp (its time column is strictly increasing), its rows
covering precisely the set union of all timestamps appearing in any
variable's series; each variable left-joined onto that skeleton, with nulls
where a variable has no value; and the variable columns ordered with all
non-target variables first (in dict order) and the designated target
variable last.  (The time column is the row key of the model and stays
leftmost in the script since the target name is not `'时间'`.) -/
theorem finalAssembly_spec (vd : List (String × List (T × Option V))) (target : String)
    (hn : ∀ p ∈ vd, (keysOf p.2).Nodup) (hv : (vd.map Prod.fst).Nodup)
    (hmem : target ∈ vd.map Prod.fst) :
    (finalAssembly vd target).1 =
      (vd.map Prod.fst).filter (fun c => c ≠ target) ++ [target] ∧
    (keysOf (finalAssembly vd target).2).Pairwise (· < ·) ∧
    (∀ t, t ∈ keysOf (finalAssembly vd target).2 ↔ ∃ p ∈ vd, t ∈ keysOf p.2) ∧
    ∀ r ∈ (finalAssembly vd target).2,
      r.2 = (finalAssembly vd target).1.map (fun n => cellOf vd n r.1) := by
  rw [finalAssembly_eq hn hv hmem]
  refine ⟨rfl, ?_, fun t => ?_, fun r hr => ?_⟩
  · rw [keysOf_map_mk]
    exact allTimes_pairwise_lt vd
  · rw [keysOf_map_mk]
    exact mem_allTimes
  · obtain ⟨t, ht, rfl⟩ := List.mem_map.mp hr
    rfl

/-- Closed instance of `finalAssembly_spec` on two variables with disjoint
timestamps, target `pow`: columns come out `["a", "pow"]`, rows cover both
timestamps in order with nulls off-series. -/
theorem finalAssembly_spec_witness :
    (finalAssembly [("pow", [((1 : Int), some (5 : Int))]), ("a", [(2, some 7)])] "pow").1 =
      ["a", "pow"] ∧
    (finalAssembly [("pow", [((1 : Int), some (5 : Int))]), ("a", [(2, some 7)])] "pow").2 =
      [(1, [none, some 5]), (2, [some 7, none])] := by
  have h := finalAssembly_spec [("pow", [((1 : Int), some (5 : Int))]), ("a", [(2, some 7)])]
    "pow" (by decide) (by decide) (by decide)
  exact ⟨h.1.trans (by decide), by decide⟩

end Assembly

/-! ## The accumulation loops of `process_all_data` (lines 101–168)

`variable_data` is the insertion-ordered dict from variable names to series.
The power folder contributes the target variable first; each configured
station then contributes its variables, fill-merging into any existing
series.  All station frames for one site share the same column list (the
same `variables` request), so `pd.concat`'s by-name column alignment
coincides with the positional concatenation of their rows. -/

section Pipeline

variable {V : Type}

/-- The designated target variable (generator active power). -/
def target_variable : String :=
  "发电机有功功率输出1"

/-- Row-major view of one extracted frame: the i-th row pairs the i-th valid
timestamp with every variable column's i-th cell. -/
def frameRows (f : List PyDateTime × List (String × List (Option V))) :
    List (PyDateTime × List (Option V)) :=
  f.1.enum.map (fun iv => (iv.2, f.2.map (fun c => c.2.getD iv.1 none)))

/-- Project one variable's series out of a combined per-station frame. -/
def seriesOf (colNames : List String) (rows : List (PyDateTime × List (Option V)))
    (var : String) : List (PyDateTime × Option V) :=
  rows.map (fun r => (r.1, (lookupKey var (colNames.zip r.2)).join))

/-- `variable_data[var] = ...` (lines 150–163): insert the new series, or
fill-merge it into the existing one when the variable is already present. -/
def addVar (d : List (String × List (PyDateTime × Option V))) (var : String)
    (s : List (PyDateTime × Option V)) : List (String × List (PyDateTime × Option V)) :=
  match lookupKey var d with
  | none => dictUpsert d var s
  | some old => dictUpsert d var (fillMerge old s)

/-- The `功率` folder loop (lines 108–122): extract the target variable from
every power file, concatenate, deduplicate, sort, and store it (when any
power file exists). -/
def processPower (powerFiles : List (RawTable V)) (year : Int) :
    List (String × List (PyDateTime × Option V)) :=
  if powerFiles.isEmpty then []
  else
    let dfs := powerFiles.map (fun f => extract_variable_from_csv f [target_variable] year)
    let combined := reconcile (dfs.map frameRows)
    [(target_variable, seriesOf (dedupFirst [target_variable]) combined target_variable)]

/-- One station of the `模入量` loop (lines 129–163). -/
def processSite (d : List (String × List (PyDateTime × Option V)))
    (vars : List String) (files : List (RawTable V)) (year : Int) :
    List (String × List (PyDateTime × Option V)) :=
  if files.isEmpty then d
  else
    let dfs := files.map (fun f => extract_variable_from_csv f vars year)
    let combined := reconcile (dfs.map frameRows)
    let colNames := dedupFirst vars
    vars.foldl (fun d' var =>
      if var ∈ colNames then addVar d' var (seriesOf colNames combined var) else d') d

/-- The accumulated `variable_data` dict after both folder loops. -/
def collect_variable_data (powerFiles : List (RawTable V))
    (sites : List (List String × List (RawTable V))) (year : Int) :
    List (String × List (PyDateTime × Option V)) :=
  sites.foldl (fun d site => processSite d site.1 site.2 year) (processPower powerFiles year)

/-- `process_all_data`: accumulate all variables, raise `ValueError`
(`没有找到任何数据`, modelled as `Except.error`) when nothing was collected,
otherwise assemble the final table. -/
def process_all_data (powerFiles : List (RawTable V))
    (sites : List (List String × List (RawTable V))) (year : Int) :
    Except String (List String × List (PyDateTime × List (Option V))) :=
  let vd := collect_variable_data powerFiles sites year
  if vd.isEmpty then Except.error "没有找到任何数据"
  else Except.ok (finalAssembly vd target_variable)

theorem keysOf_seriesOf (colNames : List String)
    (rows : List (PyDateTime × List (Option V))) (var : String) :
    keysOf (seriesOf colNames rows var) = keysOf rows := by
  rw [seriesOf, keysOf_eq_map, keysOf_eq_map, List.map_map]
  rfl

theorem addVar_nodup {d : List (String × List (PyDateTime × Option V))}
    {var : String} {s : List (PyDateTime × Option V)}
    (hd : ∀ p ∈ d, (keysOf p.2).Nodup) (hs : (keysOf s).Nodup) :
    ∀ p ∈ addVar d var s, (keysOf p.2).Nodup := by
  intro p hp
  unfold addVar at hp
  cases hl : lookupKey var d with
  | none =>
    rw [hl] at hp
    rcases mem_dictUpsert hp with h | h
    · exact hd p h
    · rw [h]
      exact hs
  | some old =>
    rw [hl] at hp
    rcases mem_dictUpsert hp with h | h
    · exact hd p h
    · rw [h]
      exact keysOf_fillMerge_nodup (hd (var, old) (mem_of_lookupKey hl)) hs

theorem processPower_nodup (powerFiles : List (RawTable V)) (year : Int) :
    ∀ p ∈ processPower powerFiles year, (keysOf p.2).Nodup := by
  intro p hp
  unfold processPower at hp
  split at hp
  · simp at hp
  · rcases List.mem_singleton.mp hp with rfl
    rw [keysOf_seriesOf]
    exact reconcile_nodupKeys _

theorem processSite_nodup {d : List (String × List (PyDateTime × Option V))}
    (vars : List String) (files : List (RawTable V)) (year : Int)
    (hd : ∀ p ∈ d, (keysOf p.2).Nodup) :
    ∀ p ∈ processSite d vars files year, (keysOf p.2).Nodup := by
  unfold processSite
  split
  · exact hd
  · have hstep : ∀ (vs : List String) (d' : List (String × List (PyDateTime × Option V))),
        (∀ p ∈ d', (keysOf p.2).Nodup) →
        ∀ p ∈ vs.foldl (fun d'' var =>
          if var ∈ dedupFirst vars then
            addVar d'' var (seriesOf (dedupFirst vars)
              (reconcile ((files.map
                (fun f => extract_variable_from_csv f vars year)).map frameRows)) var)
          else d'') d', (keysOf p.2).Nodup := by
      intro vs
      induction vs with
      | nil => exact fun d' hd' => hd'
      | cons var rest ih =>
        intro d' hd'
        rw [List.foldl_cons]
        refine ih _ ?_
        by_cases hv : var ∈ dedupFirst vars
        · rw [if_pos hv]
          refine addVar_nodup hd' ?_
          rw [keysOf_seriesOf]
          exact reconcile_nodupKeys _
        · rw [if_neg hv]
          exact hd'
    exact hstep vars d hd

theorem collect_variable_data_nodup (powerFiles : List (RawTable V))
    (sites : List (List String × List (RawTable V))) (year : Int) :
    ∀ p ∈ collect_variable_data powerFiles sites year, (keysOf p.2).Nodup := by
  rw [collect_variable_data]
  have hfold : ∀ (ss : List (List String × List (RawTable V)))
      (d : List (String × List (PyDateTime × Option V))),
      (∀ p ∈ d, (keysOf p.2).Nodup) →
      ∀ p ∈ ss.foldl (fun d' site => processSite d' site.1 site.2 year) d,
        (keysOf p.2).Nodup := by
    intro ss
    induction ss with
    | nil => exact fun d hd => hd
    | cons site rest ih =>
      intro d hd
      rw [List.foldl_cons]
      exact ih _ (processSite_nodup site.1 site.2 year hd)
  exact hfold sites _ (processPower_nodup powerFiles year)

/-- **C7 counterexample.** Two stations supply the same variable `v`; the
second station's (earlier) timestamp is appended after the first station's by
the fill-merge (`pd.merge(..., how='outer')` with the default `sort=False`
keeps the left frame's keys first), so the accumulated series after the
cross-station fill-merge is NOT strictly increasing. -/
theorem variable_data_unsorted_counterexample :
    lookupKey "v" (collect_variable_data ([] : List (RawTable Int))
      [((["v"] : List String), [⟨["0102-000000".toList], [⟨"v", "pv", [some 1]⟩]⟩]),
       (["v"], [⟨["0101-000000".toList], [⟨"v", "pv", [some 2]⟩]⟩])] 2022) =
      some [(⟨2022, 1, 2, 0, 0, 0⟩, some 1), (⟨2022, 1, 1, 0, 0, 0⟩, some 2)] ∧
    ¬ (keysOf [((⟨2022, 1, 2, 0, 0, 0⟩ : PyDateTime), some (1 : Int)),
        (⟨2022, 1, 1, 0, 0, 0⟩, some 2)]).Pairwise (· < ·) := by
  exact ⟨by decide, by decide⟩

/-- **C7 (amended).** After reconciliation every accumulated series has
pairwise-distinct timestamps (no duplicates survive the per-station dedup or
any cross-station fill-merge), and after the per-station
concatenation+dedup+sort step the timestamps are strictly increasing; but the
cross-station fill-merge preserves only distinctness, not sortedness, as the
counterexample shows. -/
theorem variable_data_invariant (powerFiles : List (RawTable V))
    (sites : List (List String × List (RawTable V))) (year : Int) :
    (∀ p ∈ collect_variable_data powerFiles sites year, (keysOf p.2).Nodup) ∧
    ∀ dfs : List (List (PyDateTime × List (Option V))),
      (keysOf (reconcile dfs)).Pairwise (· < ·) :=
  ⟨collect_variable_data_nodup powerFiles sites year,
   fun dfs => keysOf_reconcile_pairwise_lt dfs⟩

end Pipeline

/-! ## Top-level control flow (`main`, lines 199–246)

`main` is I/O-bound; its control flow is modelled as the list of observable
events it performs, in order: the two fail-fast existence checks (each
printing an error and returning before any data is read), then the guarded
pipeline whose result is either written to the output file (`to_csv`) or — on
any exception, including the fatal no-data `ValueError` — caught by the
top-level `except`, which prints the message and the traceback and writes
nothing. -/

section Main

variable {V A : Type}

/-- Observable outcomes of one `main` run. -/
inductive MainEv (A : Type) where
  | errMissingConfig : MainEv A
  | errMissingBase : MainEv A
  | wroteOutput : A → MainEv A
  | caughtError : String → MainEv A
  deriving DecidableEq

/-- `main`: check the configuration file, check the base directory, then run
the pipeline under `try`, writing the merged table on success and catching
every exception otherwise. -/
def main_model (configExists baseExists : Bool) (pipe : Except String A) :
    List (MainEv A) :=
  if configExists = false then [MainEv.errMissingConfig]
  else if baseExists = false then [MainEv.errMissingBase]
  else
    match pipe with
    | Except.ok t => [MainEv.wroteOutput t]
    | Except.error e => [MainEv.caughtError e]

/-- **C9.** The output file is written exactly when the configuration file
and base directory exist and the whole pipeline succeeds; a missing
configuration file (or base directory) makes the run consist of that single
error report, aborting before any data is read; any pipeline exception is
caught at the top level, the run consists of the single caught-error report
and no output is written; and the no-data-collected condition is indeed
raised as an exception by `process_all_data`, so it flows through the same
catch. -/
theorem main_model_spec (cfg base : Bool) (pipe : Except String A) :
    ((∃ t, MainEv.wroteOutput t ∈ main_model cfg base pipe) ↔
      (cfg = true ∧ base = true ∧ ∃ t, pipe = Except.ok t)) ∧
    (cfg = false → main_model cfg base pipe = [MainEv.errMissingConfig]) ∧
    (cfg = true → base = false → main_model cfg base pipe = [MainEv.errMissingBase]) ∧
    (∀ e, cfg = true → base = true → pipe = Except.error e →
      main_model cfg base pipe = [MainEv.caughtError e]) ∧
    ∀ (powerFiles : List (RawTable V)) (sites : List (List String × List (RawTable V)))
      (year : Int),
      collect_variable_data powerFiles sites year = [] →
        process_all_data powerFiles sites year = Except.error "没有找到任何数据" := by
  refine ⟨?_, ?_, ?_, ?_, ?_⟩
  · cases cfg with
    | false => simp [main_model]
    | true =>
      cases base with
      | false => simp [main_model]
      | true =>
        cases pipe with
        | ok t => simp [main_model]
        | error e => simp [main_model]
  · intro hc
    subst hc
    simp [main_model]
  · intro hc hb
    subst hc
    subst hb
    simp [main_model]
  · intro e hc hb hp
    subst hc
    subst hb
    subst hp
    simp [main_model]
  · intro powerFiles sites year hempty
    rw [process_all_data]
    simp [hempty]

/-- Closed instance of `main_model_spec`: a missing base directory aborts with
only that report, and a pipeline error is caught with no output written. -/
theorem main_model_spec_witness :
    main_model true false (Except.ok (42 : Int)) = [MainEv.errMissingBase] ∧
    main_model true true (Except.error "boom" : Except String Int) =
      [MainEv.caughtError "boom"] ∧
    ¬ ∃ t, MainEv.wroteOutput t ∈ main_model true true (Except.error "boom" : Except String Int) := by
  have h1 := main_model_spec (V := Int) true false (Except.ok (42 : Int))
  have h2 := main_model_spec (V := Int) true true (Except.error "boom" : Except String Int)
  refine ⟨h1.2.2.1 rfl rfl, h2.2.2.2.1 "boom" rfl rfl rfl, fun hex => ?_⟩
  obtain ⟨t, heq⟩ := (h2.1.mp hex).2.2
  exact Except.noConfusion heq

end Main

end MergeCsv
